import Mathlib

/-!
Verification of the TOC-to-bookmark pipeline of `create_bookmark.py`.

This file gives a shallow embedding of the core of `src/create_bookmark.py`
(the `add_bookmarks` function, lines 84-152): indent-unit detection, per-line
parsing of `<indent><title> <page>` lines, logical-to-physical page mapping,
and the parent-stack hierarchy builder.

Modelling conventions:
* a text line is a `List Char` (without its trailing newline; `readlines`
  splits on newlines and the code strips them immediately);
* Python's `str.expandtabs(4)`, `lstrip()`, `rstrip()`, `strip()` are embedded
  for the ASCII whitespace set `' ', '\t', '\n', '\r', '\x0b', '\x0c'`;
* the regex `^(.*)\s+(\d+)$` (with greedy `.*`) is embedded by its
  operational meaning on newline-free strings: group 2 is the maximal
  trailing digit run, the character before it must be whitespace, and
  group 1 is everything before that single whitespace character;
* the PyPDF2 writer is abstracted to the list of created outline nodes in
  creation order; a node handle is its creation index, so `parent` is an
  optional index of an earlier node;
* the Python `parent_stack` list grows at its end; here the stack is a
  `List (Nat × Nat)` of `(node index, level)` pairs with the TOP at the HEAD,
  so Python's pop-from-the-end loop is `List.dropWhile` at the head.
-/

/-- The constant `TAB_SIZE = 4` (line 31 of the source): tab stop width
used by `expandtabs`. -/
def TAB_SIZE : Nat := 4

/-- The ASCII whitespace characters recognised by Python's `str.strip` family
and by the regex class `\s`. -/
def isWS (c : Char) : Bool :=
  c == ' ' || c == '\t' || c == '\n' || c == '\r' || c == '\x0b' || c == '\x0c'

/-- The ASCII decimal digits, i.e. the regex class `\d` on ASCII input. -/
def isDigitC (c : Char) : Bool :=
  decide ('0' ≤ c ∧ c ≤ '9')

/-- Python `str.expandtabs(TAB_SIZE)` starting from column `col`: a tab is
replaced by spaces up to the next multiple of `TAB_SIZE`; `'\n'` and `'\r'`
reset the column counter; any other character advances it by one. -/
def expandTabs : Nat → List Char → List Char
  | _, [] => []
  | col, c :: cs =>
    if c = '\t' then
      let pad := TAB_SIZE - col % TAB_SIZE
      List.replicate pad ' ' ++ expandTabs (col + pad) cs
    else if c = '\n' ∨ c = '\r' then
      c :: expandTabs 0 cs
    else
      c :: expandTabs (col + 1) cs

/-- Python `str.lstrip()` (no argument): drop leading whitespace. -/
def lstripWS (l : List Char) : List Char :=
  l.dropWhile isWS

/-- Python `str.rstrip()` (no argument): drop trailing whitespace. -/
def rstripWS (l : List Char) : List Char :=
  (l.reverse.dropWhile isWS).reverse

/-- Python `str.strip()` (no argument): drop whitespace at both ends. -/
def stripWS (l : List Char) : List Char :=
  lstripWS (rstripWS l)

/-- Python `int` on a string of decimal digits. -/
def natOfDigits (d : List Char) : Nat :=
  d.foldl (fun a c => a * 10 + (c.toNat - 48)) 0

/-- The indent widths collected by lines 85-93 of the source: for every line
whose tab-expansion is not entirely whitespace, the count of its leading
whitespace characters (`len(expanded) - len(expanded.lstrip())`), kept only
when positive. -/
def collectIndentSizes (lines : List (List Char)) : List Nat :=
  lines.filterMap (fun raw =>
    let expanded := expandTabs 0 raw
    let stripped := lstripWS expanded
    if stripped = [] then none
    else
      let n := expanded.length - stripped.length
      if 0 < n then some n else none)

/-- The indent unit computed by lines 96-102 of the source:
`reduce(gcd, indent_sizes)` when some width was collected, replaced by
`min(indent_sizes)` when that GCD is 1, and defaulting to 4 when no width
was collected. -/
def detectIndentUnit (lines : List (List Char)) : Nat :=
  match collectIndentSizes lines with
  | [] => 4
  | x :: xs =>
    let g := xs.foldl Nat.gcd x
    if g = 1 then xs.foldl Nat.min x else g

/-- Lines 114-116 of the source: the indentation level of an
(already right-stripped) line: leading whitespace width after tab expansion,
divided by the indent unit with integer (floor) division. -/
def lineLevel (indent_unit : Nat) (line : List Char) : Nat :=
  let expanded := expandTabs 0 line
  (expanded.length - (lstripWS expanded).length) / indent_unit

/-- The embedding of `re.search(r'^(.*)\s+(\d+)$', s)` on a newline-free
string `s`, returning `(group(1).strip(), group(2))` on a match.  A match
requires a non-empty maximal trailing digit run (group 2, forced maximal
because the character before group 2 must match `\s`), preceded by at least
one whitespace character; the greedy `.*` makes group 1 everything up to
that last whitespace character, and the caller takes `group(1).strip()`
(line 125 of the source). -/
def matchTitlePage (s : List Char) : Option (List Char × List Char) :=
  let r := s.reverse
  let d := (r.takeWhile isDigitC).reverse
  let rest := (r.dropWhile isDigitC).reverse
  if d = [] then none
  else
    match rest.getLast? with
    | none => none
    | some c => if isWS c then some (stripWS rest.dropLast, d) else none

/-- One created outline node: title, 0-based physical page index (as passed
to `writer.add_outline_item`), and the creation index of its parent node,
if any. -/
structure Node where
  title : List Char
  page : Int
  parent : Option Nat
deriving DecidableEq, Repr

/-- The state threaded through the per-line loop of `add_bookmarks`:
the outline nodes created so far (in creation order; a node's handle is its
index in this list) and the `parent_stack` of `(node index, level)` pairs,
top at the head. -/
structure WriterSt where
  nodes : List Node
  stack : List (Nat × Nat)
deriving DecidableEq, Repr

/-- One iteration of the loop of lines 106-152 of the source, on the raw
line `raw`: right-strip; skip blank lines; compute the indent level; match
the title/page pattern (skip on failure); map the logical page to a physical
index and skip when out of range; otherwise pop every stack entry with level
`≥ level`, take the new top (if any) as parent, create the node and push it. -/
def processLine (indent_unit : Nat) (page_offset : Int) (total_pages : Nat)
    (st : WriterSt) (raw : List Char) : WriterSt :=
  let line := rstripWS raw
  let stripped_line := stripWS line
  if stripped_line = [] then st
  else
    let level := lineLevel indent_unit line
    match matchTitlePage stripped_line with
    | none => st
    | some (title, digits) =>
      let dest_page_index : Int := ((natOfDigits digits : Int) - 1) + page_offset
      if dest_page_index < 0 ∨ (total_pages : Int) ≤ dest_page_index then st
      else
        let popped := st.stack.dropWhile (fun p => decide (level ≤ p.2))
        let parent : Option Nat := popped.head?.map Prod.fst
        { nodes := st.nodes ++ [⟨title, dest_page_index, parent⟩],
          stack := (st.nodes.length, level) :: popped }

/-- The core of `add_bookmarks` (lines 84-152): detect the indent unit over
all lines, then fold the per-line loop over the lines starting from no nodes
and an empty parent stack. -/
def add_bookmarks (page_offset : Int) (total_pages : Nat)
    (lines : List (List Char)) : WriterSt :=
  let indent_unit := detectIndentUnit lines
  lines.foldl (processLine indent_unit page_offset total_pages) ⟨[], []⟩

/-- The acceptance test a raw line must pass to contribute a node: non-blank,
matches the title/page pattern, and its computed physical page index is in
`[0, total_pages)`.  This mirrors the three `continue` guards of the loop. -/
def accepts (page_offset : Int) (total_pages : Nat) (raw : List Char) : Bool :=
  let stripped_line := stripWS (rstripWS raw)
  if stripped_line = [] then false
  else
    match matchTitlePage stripped_line with
    | none => false
    | some (_, digits) =>
      let dest_page_index : Int := ((natOfDigits digits : Int) - 1) + page_offset
      !(decide (dest_page_index < 0 ∨ (total_pages : Int) ≤ dest_page_index))

/-- The parent-stack invariant: the levels on the stack are strictly
increasing from bottom to top (the head is the top, so head-first the levels
strictly decrease). -/
def StackStrict (st : WriterSt) : Prop :=
  st.stack.Pairwise (fun a b => b.2 < a.2)

/-- Auxiliary invariant for the first created node: while no node exists the
stack is empty, and once a first node exists it has no parent. -/
def RootInv (st : WriterSt) : Prop :=
  (st.nodes = [] → st.stack = []) ∧
  (∀ n, st.nodes.head? = some n → n.parent = none)

/-- A rejected line (blank, malformed, or out of range) leaves the whole
state unchanged. -/
theorem processLine_reject (u : Nat) (o : Int) (t : Nat) (st : WriterSt)
    (raw : List Char) (h : accepts o t raw = false) :
    processLine u o t st raw = st := by
  by_cases h1 : stripWS (rstripWS raw) = []
  · simp only [processLine, if_pos h1]
  · rcases hm : matchTitlePage (stripWS (rstripWS raw)) with _ | ⟨title, digits⟩
    · simp only [processLine, if_neg h1, hm]
    · unfold accepts at h
      rw [if_neg h1, hm] at h
      simp only [Bool.not_eq_false'] at h
      simp only [processLine, if_neg h1, hm, if_pos (of_decide_eq_true h)]

/-- An accepted line pops the stack entries with level `≥ level`, attaches
the new node under the remaining top (none = root), appends the node, and
pushes `(its index, level)`. -/
theorem processLine_accept (u : Nat) (o : Int) (t : Nat) (st : WriterSt)
    (raw title digits : List Char)
    (hne : stripWS (rstripWS raw) ≠ [])
    (hm : matchTitlePage (stripWS (rstripWS raw)) = some (title, digits))
    (hr : ¬(((natOfDigits digits : Int) - 1) + o < 0
            ∨ (t : Int) ≤ ((natOfDigits digits : Int) - 1) + o)) :
    processLine u o t st raw =
      { nodes := st.nodes ++ [⟨title, ((natOfDigits digits : Int) - 1) + o,
          (st.stack.dropWhile
            (fun p => decide (lineLevel u (rstripWS raw) ≤ p.2))).head?.map Prod.fst⟩],
        stack := (st.nodes.length, lineLevel u (rstripWS raw)) ::
          st.stack.dropWhile
            (fun p => decide (lineLevel u (rstripWS raw) ≤ p.2)) } := by
  simp only [processLine, if_neg hne, hm, if_neg hr]

/-- A line is accepted exactly when it is non-blank, matches the pattern and
its computed page index is in range. -/
theorem accepts_iff (o : Int) (t : Nat) (raw : List Char) :
    accepts o t raw = true ↔
      ∃ title digits, stripWS (rstripWS raw) ≠ []
        ∧ matchTitlePage (stripWS (rstripWS raw)) = some (title, digits)
        ∧ ¬(((natOfDigits digits : Int) - 1) + o < 0
            ∨ (t : Int) ≤ ((natOfDigits digits : Int) - 1) + o) := by
  constructor
  · intro h
    by_cases h1 : stripWS (rstripWS raw) = []
    · rw [accepts, if_pos h1] at h
      exact absurd h (by simp)
    · rcases hm : matchTitlePage (stripWS (rstripWS raw)) with _ | ⟨title, digits⟩
      · rw [accepts, if_neg h1, hm] at h
        exact absurd h (by simp)
      · refine ⟨title, digits, h1, hm ▸ rfl, ?_⟩
        rw [accepts, if_neg h1, hm] at h
        simpa using h
  · rintro ⟨title, digits, hne, hm, hr⟩
    rw [accepts, if_neg hne, hm]
    simpa using hr

/-- On a stack whose levels strictly decrease head-first, popping while the
top level is `≥ lvl` removes exactly the entries with level `≥ lvl`. -/
theorem dropWhile_eq_filter_of_sorted (lvl : Nat) (l : List (Nat × Nat))
    (h : l.Pairwise (fun a b => b.2 < a.2)) :
    l.dropWhile (fun p => decide (lvl ≤ p.2))
      = l.filter (fun p => decide (p.2 < lvl)) := by
  induction l with
  | nil => rfl
  | cons a l ih =>
    rw [List.pairwise_cons] at h
    by_cases ha : lvl ≤ a.2
    · rw [List.dropWhile_cons_of_pos (by simpa using ha),
        List.filter_cons_of_neg (by simpa using Nat.not_lt.mpr ha)]
      exact ih h.2
    · have ha' : a.2 < lvl := Nat.lt_of_not_le ha
      rw [List.dropWhile_cons_of_neg (by simpa using ha),
        List.filter_cons_of_pos (by simpa using ha'),
        List.filter_eq_self.mpr (fun x hx => by
          simpa using Nat.lt_trans (h.1 x hx) ha')]

/-- One step of the loop preserves the strictly-increasing-levels stack
invariant. -/
theorem processLine_strict (u : Nat) (o : Int) (t : Nat) (st : WriterSt)
    (raw : List Char) (h : StackStrict st) :
    StackStrict (processLine u o t st raw) := by
  rcases ha : accepts o t raw with _ | _
  · rw [processLine_reject u o t st raw ha]
    exact h
  · obtain ⟨title, digits, hne, hm, hr⟩ := (accepts_iff o t raw).mp ha
    rw [processLine_accept u o t st raw title digits hne hm hr]
    unfold StackStrict at h ⊢
    rw [dropWhile_eq_filter_of_sorted _ _ h, List.pairwise_cons]
    refine ⟨fun x hx => ?_, (h.sublist (List.filter_sublist _))⟩
    have := List.of_mem_filter hx
    simpa using this

/-- One step of the loop adds exactly one node on an accepted line and none
otherwise. -/
theorem processLine_nodes_length (u : Nat) (o : Int) (t : Nat) (st : WriterSt)
    (raw : List Char) :
    (processLine u o t st raw).nodes.length
      = st.nodes.length + (if accepts o t raw then 1 else 0) := by
  rcases ha : accepts o t raw with _ | _
  · rw [processLine_reject u o t st raw ha]
    simp
  · obtain ⟨title, digits, hne, hm, hr⟩ := (accepts_iff o t raw).mp ha
    rw [processLine_accept u o t st raw title digits hne hm hr]
    simp

/-- Folding the loop over a list of lines adds one node per accepted line. -/
theorem foldl_nodes_length (u : Nat) (o : Int) (t : Nat)
    (lines : List (List Char)) (st : WriterSt) :
    (lines.foldl (processLine u o t) st).nodes.length
      = st.nodes.length + lines.countP (accepts o t) := by
  induction lines generalizing st with
  | nil => simp
  | cons raw rest ih =>
    rw [List.foldl_cons, ih, processLine_nodes_length, List.countP_cons]
    by_cases ha : accepts o t raw
    · simp [ha]
      omega
    · simp [ha]

/-- Folding the loop preserves the stack invariant. -/
theorem foldl_strict (u : Nat) (o : Int) (t : Nat)
    (lines : List (List Char)) (st : WriterSt) (h : StackStrict st) :
    StackStrict (lines.foldl (processLine u o t) st) := by
  induction lines generalizing st with
  | nil => exact h
  | cons raw rest ih =>
    exact ih _ (processLine_strict u o t st raw h)

/-- The fold `reduce(gcd, xs, a)` divides its seed. -/
theorem foldl_gcd_dvd_init (xs : List Nat) (a : Nat) :
    xs.foldl Nat.gcd a ∣ a := by
  induction xs generalizing a with
  | nil => exact dvd_refl a
  | cons b bs ih =>
    exact dvd_trans (ih (Nat.gcd a b)) (Nat.gcd_dvd_left a b)

/-- The fold `reduce(gcd, xs, a)` divides every element of `xs`. -/
theorem foldl_gcd_dvd_mem (xs : List Nat) (a y : Nat) (hy : y ∈ xs) :
    xs.foldl Nat.gcd a ∣ y := by
  induction xs generalizing a with
  | nil => cases hy
  | cons b bs ih =>
    rcases List.mem_cons.mp hy with hb | hbs
    · subst hb
      exact dvd_trans (foldl_gcd_dvd_init bs (Nat.gcd a y)) (Nat.gcd_dvd_right a y)
    · exact ih _ hbs

/-- Every common divisor of the seed and the elements divides
`reduce(gcd, xs, a)`. -/
theorem dvd_foldl_gcd (xs : List Nat) (a k : Nat) (hka : k ∣ a)
    (hk : ∀ y ∈ xs, k ∣ y) : k ∣ xs.foldl Nat.gcd a := by
  induction xs generalizing a with
  | nil => exact hka
  | cons b bs ih =>
    exact ih _ (Nat.dvd_gcd hka (hk b (List.mem_cons_self b bs)))
      (fun y hy => hk y (List.mem_cons_of_mem b hy))

/-- Python `min` over `a :: xs` is an element of the list. -/
theorem foldl_min_mem (xs : List Nat) (a : Nat) :
    xs.foldl Nat.min a ∈ a :: xs := by
  induction xs generalizing a with
  | nil => exact List.mem_cons_self a []
  | cons b bs ih =>
    have hab : Nat.min a b = a ∨ Nat.min a b = b := by
      by_cases hle : a ≤ b
      · exact Or.inl (Nat.min_eq_left hle)
      · exact Or.inr (Nat.min_eq_right (Nat.le_of_not_le hle))
    rcases List.mem_cons.mp (ih (Nat.min a b)) with hm | hm
    · rw [List.foldl_cons, hm]
      rcases hab with h | h <;> rw [h]
      · exact List.mem_cons_self a (b :: bs)
      · exact List.mem_cons_of_mem a (List.mem_cons_self b bs)
    · exact List.mem_cons_of_mem a (List.mem_cons_of_mem b hm)

/-- Python `min` over `a :: xs` is bounded by its seed. -/
theorem foldl_min_le_init (xs : List Nat) (a : Nat) :
    xs.foldl Nat.min a ≤ a := by
  induction xs generalizing a with
  | nil => exact Nat.le_refl a
  | cons b bs ih =>
    exact Nat.le_trans (ih (Nat.min a b)) (Nat.min_le_left a b)

/-- Python `min` over `a :: xs` is bounded by every element of `xs`. -/
theorem foldl_min_le_mem (xs : List Nat) (a y : Nat) (hy : y ∈ xs) :
    xs.foldl Nat.min a ≤ y := by
  induction xs generalizing a with
  | nil => cases hy
  | cons b bs ih =>
    rcases List.mem_cons.mp hy with hb | hbs
    · subst hb
      exact Nat.le_trans (foldl_min_le_init bs (Nat.min a y)) (Nat.min_le_right a y)
    · exact ih _ hbs

/-- Every collected indent width is positive. -/
theorem collectIndentSizes_pos (lines : List (List Char)) (x : Nat)
    (hx : x ∈ collectIndentSizes lines) : 0 < x := by
  simp only [collectIndentSizes, List.mem_filterMap] at hx
  obtain ⟨raw, _, hf⟩ := hx
  split at hf
  · cases hf
  · split at hf
    · cases hf
      assumption
    · cases hf

/-- A whitespace character is not a digit. -/
theorem isWS_not_digit (c : Char) (h : isWS c = true) : isDigitC c = false := by
  unfold isWS at h
  simp only [Bool.or_eq_true, beq_iff_eq] at h
  rcases h with ((((h | h) | h) | h) | h) | h <;> subst h <;> decide

/-- Characterisation of a successful match of `^(.*)\s+(\d+)$`: group 2 is a
non-empty all-digit suffix whose preceding character is whitespace (hence the
run is maximal), and the returned title is everything before that whitespace
character, trimmed. -/
theorem matchTitlePage_eq_some (s t d : List Char)
    (h : matchTitlePage s = some (t, d)) :
    d ≠ [] ∧ (∀ c ∈ d, isDigitC c = true) ∧
    ∃ pre ws, s = pre ++ ws :: d ∧ isWS ws = true ∧ t = stripWS pre := by
  simp only [matchTitlePage] at h
  by_cases hd : (s.reverse.takeWhile isDigitC).reverse = []
  · rw [if_pos hd] at h
    cases h
  · rw [if_neg hd] at h
    have hsplit : s = (s.reverse.dropWhile isDigitC).reverse
        ++ (s.reverse.takeWhile isDigitC).reverse := by
      conv_lhs => rw [← List.reverse_reverse s,
        ← List.takeWhile_append_dropWhile isDigitC s.reverse]
      rw [List.reverse_append]
    rcases hrr : s.reverse.dropWhile isDigitC with _ | ⟨c, tail⟩
    · rw [hrr] at h
      simp only [List.reverse_nil, List.getLast?_nil] at h
      cases h
    · rw [hrr] at h
      simp only [List.reverse_cons, List.getLast?_concat] at h
      by_cases hw : isWS c = true
      · rw [if_pos hw] at h
        injection h with h'
        injection h' with h1 h2
        refine ⟨fun hnil => hd (h2 ▸ hnil), fun x hx => ?_, tail.reverse, c, ?_, hw, ?_⟩
        · rw [← h2, List.mem_reverse] at hx
          exact List.mem_takeWhile_imp hx
        · rw [hsplit, hrr, ← h2, List.reverse_cons, List.append_assoc,
            List.singleton_append]
        · rw [← h1, List.dropLast_concat]
      · rw [if_neg hw] at h
        cases h

/-- A digit string consisting only of `'0'` characters parses to 0. -/
theorem natOfDigits_all_zero (d : List Char) (h : ∀ c ∈ d, c = '0') :
    natOfDigits d = 0 := by
  induction d with
  | nil => rfl
  | cons c cs ih =>
    have hc : c = '0' := h c (List.mem_cons_self c cs)
    subst hc
    have h0 : (0 : Nat) * 10 + (Char.toNat '0' - 48) = 0 := by decide
    simp only [natOfDigits, List.foldl_cons, h0]
    exact ih (fun x hx => h x (List.mem_cons_of_mem _ hx))

/-- The digit-accumulating fold never drops below a positive accumulator. -/
theorem foldl_digits_pos (d : List Char) (a : Nat) (ha : 1 ≤ a) :
    1 ≤ d.foldl (fun x c => x * 10 + (c.toNat - 48)) a := by
  induction d generalizing a with
  | nil => exact ha
  | cons c cs ih =>
    rw [List.foldl_cons]
    exact ih _ (by omega)

/-- A digit string containing a nonzero digit parses to a positive value. -/
theorem natOfDigits_pos (d : List Char) (hd : ∀ c ∈ d, isDigitC c = true)
    (h : ¬ ∀ c ∈ d, c = '0') : 1 ≤ natOfDigits d := by
  induction d with
  | nil => exact absurd (fun c hc => absurd hc (List.not_mem_nil c)) h
  | cons c cs ih =>
    by_cases hc : c = '0'
    · subst hc
      have h0 : (0 : Nat) * 10 + (Char.toNat '0' - 48) = 0 := by decide
      simp only [natOfDigits, List.foldl_cons, h0]
      have hcs : ¬ ∀ x ∈ cs, x = '0' := by
        intro hall
        exact h (fun x hx => by
          rcases List.mem_cons.mp hx with h' | h'
          · exact h'
          · exact hall x h')
      exact ih (fun x hx => hd x (List.mem_cons_of_mem _ hx)) hcs
    · have hdc : ('0' ≤ c ∧ c ≤ '9') :=
        of_decide_eq_true (hd c (List.mem_cons_self c cs))
      have h48 : 48 ≤ c.toNat := hdc.1
      have hne : c.toNat ≠ 48 := fun hh => hc (Char.ext (UInt32.ext hh))
      simp only [natOfDigits, List.foldl_cons]
      exact foldl_digits_pos cs _ (by omega)

/-- The parsed page value is positive exactly when the digit run contains a
nonzero digit. -/
theorem natOfDigits_pos_iff (d : List Char) (hd : ∀ c ∈ d, isDigitC c = true) :
    1 ≤ natOfDigits d ↔ ¬ ∀ c ∈ d, c = '0' := by
  constructor
  · intro h hall
    rw [natOfDigits_all_zero d hall] at h
    exact absurd h (by decide)
  · exact natOfDigits_pos d hd

/-- One step of the loop preserves `RootInv`. -/
theorem processLine_rootInv (u : Nat) (o : Int) (t : Nat) (st : WriterSt)
    (raw : List Char) (h : RootInv st) : RootInv (processLine u o t st raw) := by
  rcases ha : accepts o t raw with _ | _
  · rw [processLine_reject u o t st raw ha]
    exact h
  · obtain ⟨title, digits, hne, hm, hr⟩ := (accepts_iff o t raw).mp ha
    rw [processLine_accept u o t st raw title digits hne hm hr]
    constructor
    · intro hnil
      exact absurd hnil (by simp)
    · intro n hn
      rcases hnodes : st.nodes with _ | ⟨n0, rest⟩
      · have hstack := h.1 hnodes
        rw [hnodes, hstack] at hn
        simp only [List.nil_append, List.head?_cons, Option.some.injEq,
          List.dropWhile_nil, List.head?_nil, Option.map_none'] at hn
        rw [← hn]
      · rw [hnodes] at hn
        simp only [List.cons_append, List.head?_cons, Option.some.injEq] at hn
        exact h.2 n (by rw [hnodes, List.head?_cons, hn])

/-- C1: for every accepted entry, the hierarchy builder pops every stack
entry whose level is `≥` the current level (on the strictly-sorted stack,
exactly the entries with level `< level` survive), attaches the new node
under the surviving top (`none` = root), and pushes the new node; and the
level sequence `[0, 1, 2, 0]` makes the fourth node a root sibling of the
first, not a child of the third. -/
theorem hierarchy_builder_pop_ge_and_attach :
    (∀ (u : Nat) (o : Int) (t : Nat) (st : WriterSt) (raw title digits : List Char),
      StackStrict st →
      stripWS (rstripWS raw) ≠ [] →
      matchTitlePage (stripWS (rstripWS raw)) = some (title, digits) →
      ¬(((natOfDigits digits : Int) - 1) + o < 0
          ∨ (t : Int) ≤ ((natOfDigits digits : Int) - 1) + o) →
      (processLine u o t st raw).stack
          = (st.nodes.length, lineLevel u (rstripWS raw))
              :: st.stack.filter (fun p => decide (p.2 < lineLevel u (rstripWS raw)))
        ∧ (processLine u o t st raw).nodes
            = st.nodes ++ [⟨title, ((natOfDigits digits : Int) - 1) + o,
                (st.stack.filter
                  (fun p => decide (p.2 < lineLevel u (rstripWS raw)))).head?.map
                    Prod.fst⟩])
    ∧ (add_bookmarks 0 10 [(("A 1").data), (("  B 2").data), (("    C 3").data),
        (("D 4").data)]).nodes.map Node.parent = [none, some 0, some 1, none] := by
  constructor
  · intro u o t st raw title digits hst hne hm hr
    rw [processLine_accept u o t st raw title digits hne hm hr,
      dropWhile_eq_filter_of_sorted (lineLevel u (rstripWS raw)) st.stack hst]
    exact ⟨rfl, rfl⟩
  · decide

/-- Witness for C1 at the line `"A 1"` with an empty initial state. -/
theorem hierarchy_builder_pop_ge_and_attach_witness :
    (StackStrict (⟨[], []⟩ : WriterSt)
      ∧ stripWS (rstripWS (("A 1").data)) ≠ []
      ∧ matchTitlePage (stripWS (rstripWS (("A 1").data)))
          = some ((("A").data), (("1").data))
      ∧ ¬(((natOfDigits (("1").data) : Int) - 1) + 0 < 0
          ∨ ((5 : Nat) : Int) ≤ ((natOfDigits (("1").data) : Int) - 1) + 0))
    ∧ ((processLine 4 0 5 ⟨[], []⟩ (("A 1").data)).stack
          = ((⟨[], []⟩ : WriterSt).nodes.length, lineLevel 4 (rstripWS (("A 1").data)))
              :: (⟨[], []⟩ : WriterSt).stack.filter
                  (fun p => decide (p.2 < lineLevel 4 (rstripWS (("A 1").data))))
        ∧ (processLine 4 0 5 ⟨[], []⟩ (("A 1").data)).nodes
            = (⟨[], []⟩ : WriterSt).nodes ++ [⟨("A").data,
                ((natOfDigits (("1").data) : Int) - 1) + 0,
                ((⟨[], []⟩ : WriterSt).stack.filter
                  (fun p => decide (p.2 < lineLevel 4 (rstripWS (("A 1").data))))).head?.map
                    Prod.fst⟩]) := by
  have h1 : StackStrict (⟨[], []⟩ : WriterSt) := List.Pairwise.nil
  have h2 : stripWS (rstripWS (("A 1").data)) ≠ [] := by decide
  have h3 : matchTitlePage (stripWS (rstripWS (("A 1").data)))
      = some ((("A").data), (("1").data)) := by decide
  have h4 : ¬(((natOfDigits (("1").data) : Int) - 1) + 0 < 0
      ∨ ((5 : Nat) : Int) ≤ ((natOfDigits (("1").data) : Int) - 1) + 0) := by decide
  exact ⟨⟨h1, h2, h3, h4⟩,
    hierarchy_builder_pop_ge_and_attach.1 4 0 5 ⟨[], []⟩ _ _ _ h1 h2 h3 h4⟩

/-- C2: processing any lines from a state whose stack levels strictly
increase from bottom to top preserves that invariant; in particular after
every full run of `add_bookmarks` the bottom-to-top level sequence of the
stack is strictly increasing. -/
theorem parent_stack_strictly_increasing :
    (∀ (u : Nat) (o : Int) (t : Nat) (lines : List (List Char)) (st : WriterSt),
      StackStrict st → StackStrict (lines.foldl (processLine u o t) st))
    ∧ (∀ (o : Int) (t : Nat) (lines : List (List Char)),
        List.Chain' (· < ·)
          (((add_bookmarks o t lines).stack.map Prod.snd).reverse)) := by
  constructor
  · exact fun u o t lines st h => foldl_strict u o t lines st h
  · intro o t lines
    have h : StackStrict (add_bookmarks o t lines) :=
      foldl_strict (detectIndentUnit lines) o t lines ⟨[], []⟩ List.Pairwise.nil
    have h2 : ((add_bookmarks o t lines).stack.map Prod.snd).Pairwise
        (fun a b => b < a) := List.pairwise_map.mpr h
    exact (List.pairwise_reverse.mpr h2).chain'

/-- Witness for C2: the invariant holds from an empty stack over two lines. -/
theorem parent_stack_strictly_increasing_witness :
    StackStrict (⟨[], []⟩ : WriterSt)
    ∧ StackStrict
        ([(("A 1").data), (("  B 2").data)].foldl (processLine 2 0 9) ⟨[], []⟩) :=
  ⟨List.Pairwise.nil,
    parent_stack_strictly_increasing.1 2 0 9 _ ⟨[], []⟩ List.Pairwise.nil⟩

/-- C4: for a parsed entry the page mapper computes
`(logicalPage - 1) + offset`, the entry is skipped iff that index is out of
`[0, totalPages)`, and otherwise exactly one node with that page index is
appended; logical page 1 with offset 16 yields index 16, and logical page 1
with offset -1 over 5 pages is skipped. -/
theorem page_mapper_offset_and_range :
    (∀ (u : Nat) (o : Int) (t : Nat) (st : WriterSt) (raw title digits : List Char),
      stripWS (rstripWS raw) ≠ [] →
      matchTitlePage (stripWS (rstripWS raw)) = some (title, digits) →
      ((processLine u o t st raw = st)
          ↔ (((natOfDigits digits : Int) - 1) + o < 0
              ∨ (t : Int) ≤ ((natOfDigits digits : Int) - 1) + o))
        ∧ (¬(((natOfDigits digits : Int) - 1) + o < 0
              ∨ (t : Int) ≤ ((natOfDigits digits : Int) - 1) + o) →
            ∃ node, (processLine u o t st raw).nodes = st.nodes ++ [node]
              ∧ node.page = ((natOfDigits digits : Int) - 1) + o))
    ∧ (∃ node, (add_bookmarks 16 20 [(("Intro 1").data)]).nodes = [node]
        ∧ node.page = 16)
    ∧ add_bookmarks (-1) 5 [(("Intro 1").data)] = ⟨[], []⟩ := by
  refine ⟨?_, ⟨⟨("Intro").data, 16, none⟩, by decide, by decide⟩, by decide⟩
  intro u o t st raw title digits hne hm
  constructor
  · constructor
    · intro heq
      by_contra hr
      rw [processLine_accept u o t st raw title digits hne hm hr] at heq
      have hlen := congrArg (fun s => s.nodes.length) heq
      simp at hlen
    · intro hr
      apply processLine_reject
      rw [accepts, if_neg hne, hm]
      simp [hr]
  · intro hr
    rw [processLine_accept u o t st raw title digits hne hm hr]
    exact ⟨_, rfl, rfl⟩

/-- Witness for C4 at the line `"Intro 1"` with offset 16 over 20 pages. -/
theorem page_mapper_offset_and_range_witness :
    (stripWS (rstripWS (("Intro 1").data)) ≠ []
      ∧ matchTitlePage (stripWS (rstripWS (("Intro 1").data)))
          = some ((("Intro").data), (("1").data)))
    ∧ (((processLine 4 16 20 ⟨[], []⟩ (("Intro 1").data) = (⟨[], []⟩ : WriterSt))
          ↔ (((natOfDigits (("1").data) : Int) - 1) + 16 < 0
              ∨ ((20 : Nat) : Int) ≤ ((natOfDigits (("1").data) : Int) - 1) + 16))
        ∧ (¬(((natOfDigits (("1").data) : Int) - 1) + 16 < 0
              ∨ ((20 : Nat) : Int) ≤ ((natOfDigits (("1").data) : Int) - 1) + 16) →
            ∃ node, (processLine 4 16 20 ⟨[], []⟩ (("Intro 1").data)).nodes
                = (⟨[], []⟩ : WriterSt).nodes ++ [node]
              ∧ node.page = ((natOfDigits (("1").data) : Int) - 1) + 16)) := by
  have h2 : stripWS (rstripWS (("Intro 1").data)) ≠ [] := by decide
  have h3 : matchTitlePage (stripWS (rstripWS (("Intro 1").data)))
      = some ((("Intro").data), (("1").data)) := by decide
  exact ⟨⟨h2, h3⟩,
    page_mapper_offset_and_range.1 4 16 20 ⟨[], []⟩ _ _ _ h2 h3⟩

/-- C5: a line that fails the title/page pattern, or whose computed page
index is out of range, leaves the whole state (nodes and parent stack)
exactly unchanged; the run continues with the next line since the fold is
total. -/
theorem recoverable_skip_preserves_state (u : Nat) (o : Int) (t : Nat)
    (st : WriterSt) (raw : List Char)
    (h : matchTitlePage (stripWS (rstripWS raw)) = none
      ∨ ∃ title digits, matchTitlePage (stripWS (rstripWS raw)) = some (title, digits)
          ∧ (((natOfDigits digits : Int) - 1) + o < 0
              ∨ (t : Int) ≤ ((natOfDigits digits : Int) - 1) + o)) :
    processLine u o t st raw = st := by
  apply processLine_reject
  by_cases h1 : stripWS (rstripWS raw) = []
  · rw [accepts, if_pos h1]
  · rcases h with hmal | ⟨title, digits, hm, hbad⟩
    · rw [accepts, if_neg h1, hmal]
    · rw [accepts, if_neg h1, hm]
      simp [hbad]

/-- Witness for C5 at the malformed line `"Chapter One"`. -/
theorem recoverable_skip_preserves_state_witness :
    (matchTitlePage (stripWS (rstripWS (("Chapter One").data))) = none
      ∨ ∃ title digits,
          matchTitlePage (stripWS (rstripWS (("Chapter One").data)))
              = some (title, digits)
          ∧ (((natOfDigits digits : Int) - 1) + 0 < 0
              ∨ ((5 : Nat) : Int) ≤ ((natOfDigits digits : Int) - 1) + 0))
    ∧ processLine 4 0 5 ⟨[], []⟩ (("Chapter One").data) = (⟨[], []⟩ : WriterSt) :=
  ⟨Or.inl (by decide),
    recoverable_skip_preserves_state 4 0 5 ⟨[], []⟩ _ (Or.inl (by decide))⟩

/-- C3: the detected indent unit is always positive; it is 4 when no
positive indent width was collected; otherwise, writing `g` for the GCD of
the collected widths (characterised by divisibility, not by the fold), the
unit is `g` when `g ≠ 1` and the minimum collected width when `g = 1`;
widths {4, 8, 12} give 4, widths {2, 3} give 2, no indent gives 4. -/
theorem indent_unit_detection_spec :
    (∀ lines, 0 < detectIndentUnit lines)
    ∧ (∀ lines, collectIndentSizes lines = [] → detectIndentUnit lines = 4)
    ∧ (∀ lines, collectIndentSizes lines ≠ [] →
        ∃ g, (∀ y ∈ collectIndentSizes lines, g ∣ y)
          ∧ (∀ k, (∀ y ∈ collectIndentSizes lines, k ∣ y) → k ∣ g)
          ∧ (g ≠ 1 → detectIndentUnit lines = g)
          ∧ (g = 1 → detectIndentUnit lines ∈ collectIndentSizes lines
              ∧ ∀ y ∈ collectIndentSizes lines, detectIndentUnit lines ≤ y))
    ∧ detectIndentUnit [(("    A 1").data), (("        B 2").data),
        (("            C 3").data)] = 4
    ∧ detectIndentUnit [(("  A 1").data), (("   B 2").data)] = 2
    ∧ detectIndentUnit [(("A 1").data)] = 4 := by
  have hchar : ∀ lines, collectIndentSizes lines ≠ [] →
      ∃ g, (∀ y ∈ collectIndentSizes lines, g ∣ y)
        ∧ (∀ k, (∀ y ∈ collectIndentSizes lines, k ∣ y) → k ∣ g)
        ∧ (g ≠ 1 → detectIndentUnit lines = g)
        ∧ (g = 1 → detectIndentUnit lines ∈ collectIndentSizes lines
            ∧ ∀ y ∈ collectIndentSizes lines, detectIndentUnit lines ≤ y) := by
    intro lines hne
    rcases heq : collectIndentSizes lines with _ | ⟨x, xs⟩
    · exact absurd heq hne
    · refine ⟨xs.foldl Nat.gcd x, ?_, ?_, ?_, ?_⟩
      · intro y hy
        rcases List.mem_cons.mp hy with h | h
        · exact h ▸ foldl_gcd_dvd_init xs x
        · exact foldl_gcd_dvd_mem xs x y h
      · intro k hk
        exact dvd_foldl_gcd xs x k (hk x (List.mem_cons_self x xs))
          (fun y hy => hk y (List.mem_cons_of_mem x hy))
      · intro hg1
        simp only [detectIndentUnit, heq, if_neg hg1]
      · intro hg1
        constructor
        · simp only [detectIndentUnit, heq, if_pos hg1]
          exact foldl_min_mem xs x
        · intro y hy
          simp only [detectIndentUnit, heq, if_pos hg1]
          rcases List.mem_cons.mp hy with h | h
          · exact h ▸ foldl_min_le_init xs x
          · exact foldl_min_le_mem xs x y h
  have hpos : ∀ lines, 0 < detectIndentUnit lines := by
    intro lines
    rcases heq : collectIndentSizes lines with _ | ⟨x, xs⟩
    · simp only [detectIndentUnit, heq]
      decide
    · have hxpos : 0 < x := collectIndentSizes_pos lines x
        (by rw [heq]; exact List.mem_cons_self x xs)
      by_cases hg : xs.foldl Nat.gcd x = 1
      · simp only [detectIndentUnit, heq, if_pos hg]
        refine collectIndentSizes_pos lines _ ?_
        rw [heq]
        exact foldl_min_mem xs x
      · simp only [detectIndentUnit, heq, if_neg hg]
        have hdvd := foldl_gcd_dvd_init xs x
        rcases Nat.eq_zero_or_pos (xs.foldl Nat.gcd x) with h0 | h
        · rw [h0] at hdvd
          have := Nat.eq_zero_of_zero_dvd hdvd
          omega
        · exact h
  refine ⟨hpos, fun lines h => by simp only [detectIndentUnit, h], hchar,
    by decide, by decide, by decide⟩

/-- Witness for C3 at collected widths `[2, 3]` (GCD 1, minimum 2). -/
theorem indent_unit_detection_spec_witness :
    collectIndentSizes [(("  A 1").data), (("   B 2").data)] ≠ []
    ∧ ∃ g, (∀ y ∈ collectIndentSizes [(("  A 1").data), (("   B 2").data)], g ∣ y)
        ∧ (∀ k, (∀ y ∈ collectIndentSizes [(("  A 1").data), (("   B 2").data)],
            k ∣ y) → k ∣ g)
        ∧ (g ≠ 1 → detectIndentUnit [(("  A 1").data), (("   B 2").data)] = g)
        ∧ (g = 1 → detectIndentUnit [(("  A 1").data), (("   B 2").data)]
              ∈ collectIndentSizes [(("  A 1").data), (("   B 2").data)]
            ∧ ∀ y ∈ collectIndentSizes [(("  A 1").data), (("   B 2").data)],
                detectIndentUnit [(("  A 1").data), (("   B 2").data)] ≤ y) :=
  ⟨by decide, indent_unit_detection_spec.2.2.1 _ (by decide)⟩

/-- C6: the number of created outline nodes equals the number of lines
passing the acceptance test (non-blank, pattern match, in-range index — the
second conjunct characterises that test). -/
theorem node_count_eq_accepted_lines :
    (∀ (o : Int) (t : Nat) (lines : List (List Char)),
      (add_bookmarks o t lines).nodes.length = lines.countP (accepts o t))
    ∧ (∀ (o : Int) (t : Nat) (raw : List Char),
        accepts o t raw = true ↔
          ∃ title digits, stripWS (rstripWS raw) ≠ []
            ∧ matchTitlePage (stripWS (rstripWS raw)) = some (title, digits)
            ∧ ¬(((natOfDigits digits : Int) - 1) + o < 0
                ∨ (t : Int) ≤ ((natOfDigits digits : Int) - 1) + o)) := by
  constructor
  · intro o t lines
    simp only [add_bookmarks]
    simpa using foldl_nodes_length (detectIndentUnit lines) o t lines ⟨[], []⟩
  · exact fun o t raw => accepts_iff o t raw

/-- C7: the indentation level is the leading-whitespace width of the
tab-expanded line divided by the indent unit (integer division), and a
width smaller than one unit maps to level 0. -/
theorem indent_level_division (u : Nat) (line : List Char) :
    lineLevel u line = ((expandTabs 0 line).takeWhile isWS).length / u
    ∧ (((expandTabs 0 line).takeWhile isWS).length < u → lineLevel u line = 0) := by
  have hlen : (expandTabs 0 line).length - (lstripWS (expandTabs 0 line)).length
      = ((expandTabs 0 line).takeWhile isWS).length := by
    have h := congrArg List.length
      (List.takeWhile_append_dropWhile isWS (expandTabs 0 line))
    rw [List.length_append] at h
    unfold lstripWS
    omega
  constructor
  · simp only [lineLevel]
    rw [hlen]
  · intro hlt
    simp only [lineLevel]
    rw [hlen]
    exact Nat.div_eq_of_lt hlt

/-- Witness for C7: a 2-space indent with unit 4 maps to level 0. -/
theorem indent_level_division_witness :
    ((expandTabs 0 (("  A 1").data)).takeWhile isWS).length < 4
    ∧ lineLevel 4 (("  A 1").data) = 0 :=
  ⟨by decide, (indent_level_division 4 (("  A 1").data)).2 (by decide)⟩

/-- C8: on a match, group 2 is the last (maximal) whitespace-separated
digit run — an all-digit suffix whose preceding character is whitespace,
hence not a digit — and the title is everything before that whitespace,
trimmed; `"Section 2 10"` parses to title `"Section 2"` and page 10. -/
theorem last_digit_run_is_page :
    (∀ s t d, matchTitlePage s = some (t, d) →
      ∃ pre ws, s = pre ++ ws :: d ∧ isWS ws = true ∧ isDigitC ws = false
        ∧ d ≠ [] ∧ (∀ c ∈ d, isDigitC c = true) ∧ t = stripWS pre)
    ∧ matchTitlePage (("Section 2 10").data)
        = some ((("Section 2").data), (("10").data))
    ∧ natOfDigits (("10").data) = 10 := by
  refine ⟨?_, by decide, by decide⟩
  intro s t d h
  obtain ⟨hne, hdig, pre, ws, hs, hws, ht⟩ := matchTitlePage_eq_some s t d h
  exact ⟨pre, ws, hs, hws, isWS_not_digit ws hws, hne, hdig, ht⟩

/-- Witness for C8 at the ambiguous line `"Section 2 10"`. -/
theorem last_digit_run_is_page_witness :
    matchTitlePage (("Section 2 10").data)
        = some ((("Section 2").data), (("10").data))
    ∧ ∃ pre ws, ("Section 2 10").data = pre ++ ws :: (("10").data)
        ∧ isWS ws = true ∧ isDigitC ws = false
        ∧ (("10").data) ≠ [] ∧ (∀ c ∈ (("10").data), isDigitC c = true)
        ∧ ("Section 2").data = stripWS pre :=
  ⟨by decide, last_digit_run_is_page.1 _ _ _ (by decide)⟩

/-- C9 counterexample: it is not true that every matching line parses to a
page number `≥ 1` — the line `"Chapter 0"` matches the pattern and its
trailing digits parse to 0. -/
theorem parsed_page_positive_cex :
    ¬ (∀ s t d, matchTitlePage s = some (t, d) → 1 ≤ natOfDigits d) := by
  intro hall
  have h := hall (("Chapter 0").data) (("Chapter").data) (("0").data) (by decide)
  exact absurd h (by decide)

/-- C9 (amended): on a match the trailing digits parse to a nonnegative
integer, positive exactly when some digit is nonzero; the title is the text
before the whitespace/digit split, trimmed. -/
theorem parsed_page_nonneg_amended (s t d : List Char)
    (h : matchTitlePage s = some (t, d)) :
    d ≠ [] ∧ (∀ c ∈ d, isDigitC c = true)
    ∧ (1 ≤ natOfDigits d ↔ ¬ ∀ c ∈ d, c = '0')
    ∧ ∃ pre ws, s = pre ++ ws :: d ∧ isWS ws = true ∧ t = stripWS pre := by
  obtain ⟨hne, hdig, pre, ws, hs, hws, ht⟩ := matchTitlePage_eq_some s t d h
  exact ⟨hne, hdig, natOfDigits_pos_iff d hdig, pre, ws, hs, hws, ht⟩

/-- Witness for C9 (amended) at the line `"Intro 3"`. -/
theorem parsed_page_nonneg_amended_witness :
    matchTitlePage (("Intro 3").data) = some ((("Intro").data), (("3").data))
    ∧ ((("3").data) ≠ [] ∧ (∀ c ∈ (("3").data), isDigitC c = true)
      ∧ (1 ≤ natOfDigits (("3").data) ↔ ¬ ∀ c ∈ (("3").data), c = '0')
      ∧ ∃ pre ws, ("Intro 3").data = pre ++ ws :: (("3").data)
          ∧ isWS ws = true ∧ ("Intro").data = stripWS pre) :=
  ⟨by decide, parsed_page_nonneg_amended _ _ _ (by decide)⟩

/-- Folding the loop preserves `RootInv`. -/
theorem foldl_rootInv (u : Nat) (o : Int) (t : Nat)
    (lines : List (List Char)) (st : WriterSt) (h : RootInv st) :
    RootInv (lines.foldl (processLine u o t) st) := by
  induction lines generalizing st with
  | nil => exact h
  | cons raw rest ih =>
    exact ih _ (processLine_rootInv u o t st raw h)

/-- C10: the first node a run creates is always a root (its parent is
`none`), because the parent stack is empty until the first push. -/
theorem first_accepted_entry_is_root (o : Int) (t : Nat)
    (lines : List (List Char)) (n : Node)
    (h : (add_bookmarks o t lines).nodes.head? = some n) :
    n.parent = none := by
  have hinv : RootInv (add_bookmarks o t lines) :=
    foldl_rootInv (detectIndentUnit lines) o t lines ⟨[], []⟩
      ⟨fun _ => rfl, fun n hn => by cases hn⟩
  exact hinv.2 n h

/-- Witness for C10: a single indented line (level 1) still yields a root. -/
theorem first_accepted_entry_is_root_witness :
    (add_bookmarks 0 5 [(("    A 1").data)]).nodes.head?
        = some ⟨("A").data, 0, none⟩
    ∧ Node.parent ⟨("A").data, 0, none⟩ = none :=
  ⟨by decide, first_accepted_entry_is_root 0 5 [(("    A 1").data)]
    ⟨("A").data, 0, none⟩ (by decide)⟩
